import Mathlib

/-!
Verification of the merge engine of `src/bin/csvutil.py` (the `op_merge`
operation and its helpers).  The Python code is shallowly embedded: rows are
lists of strings, the mutable closure state (`cmp_line`, `aggregate_values`)
becomes explicit state threaded through a fold, Python exceptions
(`IndexError`, `KeyError`, `ValueError`, `StatisticsError`) become an error
monad, and printing becomes a list of emitted rows.
-/

/-- Errors a merge run can raise, mirroring the Python exceptions that abort
the process: list index out of range, dict key missing, float parse failure,
and `statistics.StatisticsError`. -/
inductive MergeErr where
  | indexOutOfRange : MergeErr
  | keyError : MergeErr
  | valueError : MergeErr
  | statisticsError : MergeErr
deriving DecidableEq, Repr

deriving instance DecidableEq for Except

/-- A CSV row: the ordered list of (already stripped) field strings that
`csv_rows` hands to the per-row callback. -/
abbrev Row := List String

/-- A merge function as used by `add_mergeable`: the composite
`str(f(aggregate_values[n]))` of a `fcn_set` entry `f` with Python's `str`
rendering, taking the accumulated raw values to the rendered output field.
Fallible because `f` may raise. -/
abbrev Fn := List String → Except MergeErr String

/-- The parsed field-function bindings, `field_functions` in the source:
an ordered list of (field index, function) pairs, duplicates allowed. -/
abbrev FFs := List (ℕ × Fn)

/-- The `aggregate_values` dict: an association list from aggregated field
index to the ordered raw values seen in the current group. -/
abbrev AggVals := List (ℕ × List String)

/-- The engine state: `none` models `cmp_line is None`; otherwise the pair of
the current comparable key (`cmp_line`) and `aggregate_values`. -/
abbrev MergeSt := Option (Row × AggVals)

/-- Embeds `sfield_set = set([p[0] for p in field_functions])`: the set of
aggregated field indices, as a duplicate-free list. -/
def sfields (ffs : FFs) : List ℕ := (ffs.map Prod.fst).dedup

/-- Embeds the loop of `make_comparable` with the running index `n` explicit:
`for n in range(len(l)): if n not in sfield_set: ret.append(l[n])`. -/
def make_comparable_from (s : List ℕ) : ℕ → List String → List String
  | _, [] => []
  | n, x :: t =>
      if n ∈ s then make_comparable_from s (n + 1) t
      else x :: make_comparable_from s (n + 1) t

/-- Embeds `make_comparable`: project a row onto the field positions that are
not aggregated, preserving left-to-right order. -/
def make_comparable (s : List ℕ) (l : Row) : Row := make_comparable_from s 0 l

/-- Embeds `reset_cmp_line`: start a new group at `row`, setting
`cmp_line = make_comparable(row)` and `aggregate_values[n] = [row[n]]` for
every aggregated index `n`.  Accessing `row[n]` out of range raises
`IndexError`, modelled by the range guard. -/
def reset_cmp_line (s : List ℕ) (row : Row) : Except MergeErr (Row × AggVals) :=
  if ∀ n ∈ s, n < row.length then
    .ok (make_comparable s row, s.map (fun n => (n, [row.getD n ("")])))
  else .error .indexOutOfRange

/-- Embeds the matching-key branch of `collect_and_aggregate`:
`aggregate_values[n].append(row[n])` for every aggregated index `n` (the keys
of `aggregate_values` are exactly the aggregated indices).  Out-of-range
access raises `IndexError`. -/
def append_values (s : List ℕ) (acc : AggVals) (row : Row) : Except MergeErr AggVals :=
  if ∀ n ∈ s, n < row.length then
    .ok (acc.map (fun p => (p.1, p.2 ++ [row.getD p.1 ("")])))
  else .error .indexOutOfRange

/-- Embeds `add_mergeable`: for each binding `(n, f)` of `field_functions` in
order, append `str(f(aggregate_values[n]))` to the row `l`.  A missing key
raises `KeyError`; the function itself may raise. -/
def add_mergeable : FFs → AggVals → Row → Except MergeErr Row
  | [], _, l => .ok l
  | (n, f) :: rest, acc, l =>
      match acc.lookup n with
      | none => .error .keyError
      | some vs =>
          match f vs with
          | .error e => .error e
          | .ok v => add_mergeable rest acc (l ++ [v])

/-- The rendered results of the bindings alone, in specification order: the
list of `str(f(aggregate_values[n]))` values that `add_mergeable` appends. -/
def bindingResults : FFs → AggVals → Except MergeErr (List String)
  | [], _ => .ok []
  | (n, f) :: rest, acc =>
      match acc.lookup n with
      | none => .error .keyError
      | some vs =>
          match f vs with
          | .error e => .error e
          | .ok v =>
              match bindingResults rest acc with
              | .error e => .error e
              | .ok vl => .ok (v :: vl)

/-- Embeds one call of `collect_and_aggregate` on one row: either open the
first group, extend the current group, or flush the current group (emitting
one row) and start a new one.  Returns the rows printed during the step and
the new state (or the exception that aborted the run; a flush that was
printed before a later exception is retained). -/
def collect_and_aggregate (ffs : FFs) (st : MergeSt) (row : Row) :
    List Row × Except MergeErr MergeSt :=
  match st with
  | none =>
      match reset_cmp_line (sfields ffs) row with
      | .error e => ([], .error e)
      | .ok st1 => ([], .ok (some st1))
  | some (cmp, acc) =>
      if make_comparable (sfields ffs) row = cmp then
        match append_values (sfields ffs) acc row with
        | .error e => ([], .error e)
        | .ok acc1 => ([], .ok (some (cmp, acc1)))
      else
        match add_mergeable ffs acc cmp with
        | .error e => ([], .error e)
        | .ok out =>
            match reset_cmp_line (sfields ffs) row with
            | .error e => ([out], .error e)
            | .ok st1 => ([out], .ok (some st1))

/-- Embeds the `csv_rows` loop of `op_merge`: feed each row in order to
`collect_and_aggregate`, collecting everything printed, stopping at the first
exception. -/
def csv_fold (ffs : FFs) : MergeSt → List Row → List Row × Except MergeErr MergeSt
  | st, [] => ([], .ok st)
  | st, row :: rest =>
      match collect_and_aggregate ffs st row with
      | (outs, .error e) => (outs, .error e)
      | (outs, .ok st1) =>
          match csv_fold ffs st1 rest with
          | (outs2, r) => (outs ++ outs2, r)

/-- Embeds the whole streaming part of `op_merge` after argument parsing: run
the fold from the initial `cmp_line = None` state, then the trailing
`if cmp_line is not None: add_mergeable(cmp_line); print(...)` final flush.
Returns the emitted rows in order and the exception, if one aborted the
run. -/
def runMerge (ffs : FFs) (rows : List Row) : List Row × Option MergeErr :=
  match csv_fold ffs none rows with
  | (outs, .error e) => (outs, some e)
  | (outs, .ok none) => (outs, none)
  | (outs, .ok (some (cmp, acc))) =>
      match add_mergeable ffs acc cmp with
      | .error e => (outs, some e)
      | .ok out => (outs ++ [out], none)

/-- Embeds `fcn_set['first'] = lambda l: l[0]` composed with the `str` call of
`add_mergeable` (`str` is the identity on Python strings): return the first
accumulated raw value; `IndexError` on an empty list. -/
def firstFn : Fn := fun l =>
  match l with
  | [] => .error .indexOutOfRange
  | x :: _ => .ok x

/-- Embeds `fcn_set['last'] = lambda l: l[-1]` composed with `str`: return the
last accumulated raw value; `IndexError` on an empty list. -/
def lastFn : Fn := fun l =>
  match l.getLast? with
  | none => .error .indexOutOfRange
  | some x => .ok x

/-- Embeds `fcn_set['ignore'] = lambda l: None` composed with the `str` call
of `add_mergeable`: Python renders `str(None)` as the four-character text
"None", which is what the source appends to the output row. -/
def ignoreFn : Fn := fun _ => .ok ("None")

/-- Embeds the character class `[a-z]` of the spec regex in `ff`. -/
def isLowerAlpha (c : Char) : Bool := 97 ≤ c.toNat && c.toNat ≤ 122

/-- The numeric value of a digit sequence, embedding Python's
`int(m.group(1))` on text the regex has already constrained to `[0-9]+`. -/
def digitsVal (cs : List Char) : ℕ := cs.foldl (fun n c => n * 10 + (c.toNat - 48)) 0

/-- The anchored body of the spec regex on a character sequence: a non-empty
maximal digit prefix, then one colon, then a non-empty all-lowercase
remainder (which, being `[a-z]` only, can contain neither a colon nor a
digit nor a newline).  Returns the parsed field index and the function name
on a match. -/
def ffGrammarChars (cs : List Char) : Option (ℕ × String) :=
  match cs.dropWhile Char.isDigit with
  | ':' :: b =>
      if !(cs.takeWhile Char.isDigit).isEmpty && !b.isEmpty && b.all isLowerAlpha then
        some (digitsVal (cs.takeWhile Char.isDigit), String.mk b)
      else none
  | _ => none

/-- Embeds the regex test `re.search("^([0-9]+):([a-z]+)$", s)` of `ff`.
Without `re.MULTILINE`, `^` anchors the match at the start of the string and
Python's `$` matches at the end of the string or just before one final
newline, so the regex accepts the well-formed spec text optionally followed
by a single trailing newline (and nothing else: the groups cannot contain a
newline).  The trailing newline, when present, is outside the match and does
not reach the captured groups. -/
def ffGrammar (spec : String) : Option (ℕ × String) :=
  if spec.data.getLast? = some (Char.ofNat 10) then ffGrammarChars spec.data.dropLast
  else ffGrammarChars spec.data

/-- The keys of `fcn_set`, in source order: the nine recognized aggregation
function names. -/
def fcnNames : List String := ["sum", "min", "max", "mean", "median", "stdev", "first", "last", "ignore"]

/-- Embeds `ff` inside `op_merge`, parameterized by the registry `fcn_set` it
closes over: reject a spec that fails the grammar (`fatal`, modelled as an
error result) or whose function name is not a key of the registry; otherwise
return the binding `(int(m.group(1)), fcn_set[m.group(2)])`. -/
def ff (reg : List (String × Fn)) (spec : String) : Except String (ℕ × Fn) :=
  match ffGrammar spec with
  | none => .error ("unable to interpret field:function " ++ spec)
  | some (n, name) =>
      match reg.lookup name with
      | none => .error ("no such field:function operation: " ++ name)
      | some f => .ok (n, f)

/-- Embeds the order of operations of `op_merge` after argument parsing:
first `field_functions = [ff(s) for s in args.field_function]` validates and
resolves every spec (the first failure aborts), and only then does
`csv_rows` stream the input through `collect_and_aggregate` and the final
flush. -/
def op_merge (reg : List (String × Fn)) (specs : List String) (rows : List Row) :
    Except String (List Row × Option MergeErr) :=
  match specs.mapM (ff reg) with
  | .error e => .error e
  | .ok ffs => .ok (runMerge ffs rows)

/-- The number of maximal contiguous runs of equal adjacent elements of a
list: the specification-side count of groups. -/
def numRuns {α : Type _} [DecidableEq α] : List α → ℕ
  | [] => 0
  | [_] => 1
  | a :: b :: t => (if a = b then 0 else 1) + numRuns (b :: t)

/-- The number of rows accumulated in the currently open group after the rows
of `processed` have streamed through: the length of the maximal suffix of
`processed` whose comparable key equals the current key `cmp`. -/
def grpCount (s : List ℕ) (cmp : Row) (processed : List Row) : ℕ :=
  (processed.reverse.takeWhile (fun r => make_comparable s r == cmp)).length

/-- Specification-side adjacent deduplication, mirroring what the merge does
when no field-function bindings are given: from current key `k`, drop rows
equal to `k`, emit `k` at each key change, and return the emitted rows
together with the final key (which the merge flushes at end of input). -/
def dedupAdjFrom (k : Row) : List Row → List Row × Row
  | [] => ([], k)
  | r :: t =>
      if r = k then dedupAdjFrom k t
      else
        match dedupAdjFrom r t with
        | (outs, kl) => (k :: outs, kl)

/-- Embeds `trivial_multiple` of `op_merge`:
`lambda l: f(l) if len(l) > 1 else f([l[0], l[0]])`, the wrapper that
duplicates a singleton before calling `statistics.stdev`.  On the empty list
Python's `l[0]` would raise; accumulator value lists are never empty (see the
open-group invariant), and `List.headI` takes the default value there. -/
def trivial_multiple {B : Type _} (f : List ℚ → B) (l : List ℚ) : B :=
  if 1 < l.length then f l else f [l.headI, l.headI]

/-- The sample variance with Bessel's correction (divisor n - 1) used by
`statistics.stdev`, on already-parsed numeric values, idealized from binary
floating point to exact rationals. -/
def sampleVariance (l : List ℚ) : ℚ :=
  (l.map (fun x => (x - l.sum / (l.length : ℚ))^2)).sum / ((l.length : ℚ) - 1)

/-- Embeds `statistics.stdev` on already-parsed numeric values: the square
root of the sample variance; `statistics.StatisticsError` when fewer than two
data points are given. -/
noncomputable def stdev (l : List ℚ) : Except MergeErr ℝ :=
  if l.length < 2 then .error .statisticsError
  else .ok (Real.sqrt (sampleVariance l))

/-- Helper: `add_mergeable` succeeds exactly when every binding result does,
and then the output row is the input row with the rendered results appended
in binding order. -/
theorem add_mergeable_ok_iff (ffs : FFs) (acc : AggVals) :
    ∀ (l out : Row), add_mergeable ffs acc l = .ok out ↔
      ∃ res, bindingResults ffs acc = .ok res ∧ out = l ++ res := by
  induction ffs with
  | nil =>
      intro l out
      simp [add_mergeable, bindingResults, eq_comm]
  | cons p rest ih =>
      obtain ⟨n, f⟩ := p
      intro l out
      cases h : acc.lookup n with
      | none => simp [add_mergeable, bindingResults, h]
      | some vs =>
          cases hf : f vs with
          | error e => simp [add_mergeable, bindingResults, h, hf]
          | ok v =>
              simp only [add_mergeable, bindingResults, h, hf]
              rw [ih]
              constructor
              · rintro ⟨res, hres, rfl⟩
                refine ⟨v :: res, ?_, by simp⟩
                rw [hres]
              · rintro ⟨res, hres, rfl⟩
                cases hbr : bindingResults rest acc with
                | error e => rw [hbr] at hres; cases hres
                | ok vl =>
                    rw [hbr] at hres
                    cases hres
                    exact ⟨vl, rfl, by simp⟩

/-- Helper: a successful `bindingResults` pairs each binding, in order and
with duplicates kept, with the rendered result of its own function applied to
the accumulated values of its own field index. -/
theorem bindingResults_forall2 (acc : AggVals) :
    ∀ (ffs : FFs) (res : List String), bindingResults ffs acc = .ok res →
      List.Forall₂ (fun (p : ℕ × Fn) (v : String) =>
        ∃ vs, acc.lookup p.1 = some vs ∧ p.2 vs = .ok v) ffs res := by
  intro ffs
  induction ffs with
  | nil =>
      intro res h
      simp [bindingResults] at h
      simp [h.symm]
  | cons p rest ih =>
      obtain ⟨n, f⟩ := p
      intro res h
      cases hl : acc.lookup n with
      | none => simp [bindingResults, hl] at h
      | some vs =>
          cases hf : f vs with
          | error e => simp [bindingResults, hl, hf] at h
          | ok v =>
              simp only [bindingResults, hl, hf] at h
              cases hbr : bindingResults rest acc with
              | error e => rw [hbr] at h; cases h
              | ok vl =>
                  rw [hbr] at h
                  cases h
                  exact List.Forall₂.cons ⟨vs, hl, hf⟩ (ih vl hbr)

/-- Claim C2, evaluation at the failing input: contrary to the specification,
a binding whose function is `ignore` does contribute a field, because
`add_mergeable` appends `str(f(...))` unconditionally and `str(None)` is the
text "None".  Merging the single row `a,1` with the binding `1:ignore` emits
the row `a,None`, not the bare comparable row `a`. -/
theorem ignore_appends_none :
    runMerge [(1, ignoreFn)] [["a", "1"]] = ([["a", "None"]], none) ∧
    (["a", "None"] : Row) ≠ (["a"] : Row) := by decide

/-- Claim C3, counterexample: with the duplicate bindings `0:first, 0:last`
on the two rows `1,x` and `2,x`, the emitted row is `x,1,2`: the result of
the earlier binding (`first`, giving "1") is present, so it is false that
only the last-specified function for a duplicated field index contributes
(which would give `x,2`).  `field_functions` is a list, not a lookup table,
and every entry is applied. -/
theorem duplicate_bindings_last_does_not_win :
    runMerge [(0, firstFn), (0, lastFn)] [["1", "x"], ["2", "x"]] = ([["x", "1", "2"]], none) ∧
    (("1" : String) ∈ (["x", "1", "2"] : Row)) ∧
    (["x", "1", "2"] : Row) ≠ (["x", "2"] : Row) := by decide

/-- Claim C3 as amended: duplicate field indices are not rejected, and every
binding — duplicates included — contributes exactly one output field, in the
order the bindings were specified, each function applied to the accumulated
value sequence of its own field index. -/
theorem bindings_contribute_in_order (ffs : FFs) (acc : AggVals) (l out : Row)
    (h : add_mergeable ffs acc l = .ok out) :
    ∃ res, out = l ++ res ∧
      List.Forall₂ (fun (p : ℕ × Fn) (v : String) =>
        ∃ vs, acc.lookup p.1 = some vs ∧ p.2 vs = .ok v) ffs res := by
  rcases (add_mergeable_ok_iff ffs acc l out).mp h with ⟨res, hres, rfl⟩
  exact ⟨res, rfl, bindingResults_forall2 acc ffs res hres⟩

/-- Witness for the amended claim C3, at the duplicate-binding flush of the
counterexample: both `first` and `last` contribute, in order. -/
theorem bindings_contribute_in_order_witness :
    ∃ res, (["x", "1", "2"] : Row) = ["x"] ++ res ∧
      List.Forall₂ (fun (p : ℕ × Fn) (v : String) =>
        ∃ vs, List.lookup p.1 ([(0, ["1", "2"])] : AggVals) = some vs ∧ p.2 vs = .ok v)
        [(0, firstFn), (0, lastFn)] res :=
  bindings_contribute_in_order [(0, firstFn), (0, lastFn)] [(0, ["1", "2"])] ["x"]
    ["x", "1", "2"] (by decide)

/-- Claim C4, counterexample: merging `1,a` and `2,a` with the spec `0:first`
emits `a,1`; running merge again on that output with the same spec emits
`1,a`, because the appended result sits at the end of the row while the
aggregated field index still points at position 0.  Merge is not idempotent
in general. -/
theorem merge_not_idempotent :
    runMerge [(0, firstFn)] (runMerge [(0, firstFn)] [["1", "a"], ["2", "a"]]).1 ≠
      runMerge [(0, firstFn)] [["1", "a"], ["2", "a"]] := by decide

/-- Claim C6: applying the `stdev` reduction to a group with exactly one
(parsed) value never fails: `trivial_multiple` duplicates the single value to
the pair of two identical values before calling `statistics.stdev`, and the
sample standard deviation of that pair is 0. -/
theorem stdev_singleton_zero (q : ℚ) :
    trivial_multiple stdev [q] = stdev [q, q] ∧ trivial_multiple stdev [q] = .ok 0 := by
  have hdup : trivial_multiple stdev [q] = stdev [q, q] := by
    simp [trivial_multiple]
  refine ⟨hdup, ?_⟩
  rw [hdup]
  have hv : sampleVariance [q, q] = 0 := by simp [sampleVariance]
  simp [stdev, hv]

/-- Claim C7: on every non-empty accumulated value sequence, `first` returns
the first raw value and `last` the last raw value, unchanged — arbitrary
strings, numeric or not, pass through with no parsing. -/
theorem first_last_passthrough (l : List String) (h : l ≠ []) :
    firstFn l = .ok (l.head h) ∧ lastFn l = .ok (l.getLast h) := by
  cases l with
  | nil => exact absurd rfl h
  | cons x t =>
      constructor
      · rfl
      · simp [lastFn, List.getLast?_eq_getLast (x :: t) h]

/-- Witness for claim C7, on a two-element sequence of non-numeric raw
text. -/
theorem first_last_passthrough_witness :
    firstFn ["first item", "not a number"] = .ok ("first item") ∧
    lastFn ["first item", "not a number"] = .ok ("not a number") :=
  first_last_passthrough ["first item", "not a number"] (by decide)

/-- Helper: looking up a name that is not among the keys of the registry
association list yields nothing, the model of `name not in fcn_set`. -/
theorem lookup_none_of_not_mem_keys :
    ∀ (reg : List (String × Fn)) (name : String),
      name ∉ reg.map Prod.fst → reg.lookup name = none := by
  intro reg
  induction reg with
  | nil => intro name _; rfl
  | cons p rest ih =>
      intro name h
      obtain ⟨k, f⟩ := p
      have hne : name ≠ k := by
        intro hk
        exact h (by simp [hk])
      have hrest : name ∉ rest.map Prod.fst := by
        intro hmem
        exact h (by simp [hmem])
      simp [List.lookup, beq_eq_false_iff_ne.mpr hne, ih name hrest]

/-- Helper: if validation of any single spec fails, validating the whole spec
list fails (with the message of the first failing spec). -/
theorem mapM_ff_error (reg : List (String × Fn)) :
    ∀ (specs : List String), (∃ s ∈ specs, ∃ msg, ff reg s = .error msg) →
      ∃ msg, specs.mapM (ff reg) = .error msg := by
  intro specs
  induction specs with
  | nil => rintro ⟨s, hs, _⟩; cases hs
  | cons s0 rest ih =>
      rintro ⟨s, hs, msg, hmsg⟩
      rw [List.mapM_cons]
      cases hff : ff reg s0 with
      | error e => exact ⟨e, rfl⟩
      | ok v =>
          have hsrest : s ∈ rest := by
            rcases List.mem_cons.mp hs with h0 | h1
            · rw [h0, hff] at hmsg; cases hmsg
            · exact h1
          rcases ih ⟨s, hsrest, msg, hmsg⟩ with ⟨m2, hm2⟩
          refine ⟨m2, ?_⟩
          rw [hm2]
          rfl

/-- Claim C8 as amended: all field-function specs are validated before the
first row is read.  With a registry whose keys are the nine recognized
names, if any spec fails the source's actual grammar — the claimed
`<non-negative integer>:<lowercase identifier>` shape optionally followed by
one trailing newline, which Python's `$` tolerates — or names an unknown
function, `op_merge` aborts with an error whose value does not depend on the
input rows at all: no row is processed and no output is produced. -/
theorem invalid_spec_aborts (reg : List (String × Fn)) (specs : List String)
    (hreg : reg.map Prod.fst = fcnNames)
    (hbad : ∃ s ∈ specs, ffGrammar s = none ∨
      ∃ n name, ffGrammar s = some (n, name) ∧ name ∉ fcnNames) :
    ∃ msg, ∀ rows : List Row, op_merge reg specs rows = .error msg := by
  have hffbad : ∃ s ∈ specs, ∃ msg, ff reg s = .error msg := by
    rcases hbad with ⟨s, hs, hcase⟩
    refine ⟨s, hs, ?_⟩
    rcases hcase with hnone | ⟨n, name, hsome, hnotin⟩
    · exact ⟨("unable to interpret field:function " ++ s), by simp [ff, hnone]⟩
    · have hlk : reg.lookup name = none :=
        lookup_none_of_not_mem_keys reg name (by rw [hreg]; exact hnotin)
      exact ⟨("no such field:function operation: " ++ name), by simp [ff, hsome, hlk]⟩
  rcases mapM_ff_error reg specs hffbad with ⟨msg, hmsg⟩
  exact ⟨msg, fun rows => by unfold op_merge; rw [hmsg]⟩

/-- Witness for claim C8: with the nine-name registry and the single invalid
spec `0:nope`, the run aborts identically for every input. -/
theorem invalid_spec_aborts_witness :
    ∃ msg, ∀ rows : List Row,
      op_merge [("sum", ignoreFn), ("min", ignoreFn), ("max", ignoreFn), ("mean", ignoreFn),
        ("median", ignoreFn), ("stdev", ignoreFn), ("first", ignoreFn), ("last", ignoreFn),
        ("ignore", ignoreFn)] ["0:nope"] rows = .error msg :=
  invalid_spec_aborts _ _ rfl
    ⟨"0:nope", by decide, Or.inr ⟨0, "nope", by decide, by decide⟩⟩

/-- Helper: a successful `reset_cmp_line` returns exactly the new comparable
key and the singleton accumulators of the given row. -/
theorem reset_cmp_line_ok_eq (s : List ℕ) (row : Row) (p : Row × AggVals)
    (h : reset_cmp_line s row = .ok p) :
    p = (make_comparable s row, s.map (fun n => (n, [row.getD n ("")]))) := by
  by_cases hg : ∀ n ∈ s, n < row.length
  · rw [reset_cmp_line, if_pos hg] at h
    cases h
    rfl
  · rw [reset_cmp_line, if_neg hg] at h
    cases h

/-- Helper: a row missing a configured aggregated field index makes
`collect_and_aggregate` raise, from every state. -/
theorem collect_bad_row (ffs : FFs) (n : ℕ) (row : Row)
    (hn : n ∈ sfields ffs) (hlen : row.length ≤ n) (st : MergeSt) :
    ∃ outs e, collect_and_aggregate ffs st row = (outs, .error e) := by
  have hguard : ¬ ∀ m ∈ sfields ffs, m < row.length := by
    intro h
    exact absurd (h n hn) (by omega)
  cases st with
  | none =>
      refine ⟨[], .indexOutOfRange, ?_⟩
      simp [collect_and_aggregate, reset_cmp_line, hguard]
  | some p =>
      obtain ⟨cmp, acc⟩ := p
      by_cases hkey : make_comparable (sfields ffs) row = cmp
      · refine ⟨[], .indexOutOfRange, ?_⟩
        simp [collect_and_aggregate, hkey, append_values, hguard]
      · cases ham : add_mergeable ffs acc cmp with
        | error e =>
            refine ⟨[], e, ?_⟩
            simp [collect_and_aggregate, hkey, ham]
        | ok out =>
            refine ⟨[out], .indexOutOfRange, ?_⟩
            simp [collect_and_aggregate, hkey, ham, reset_cmp_line, hguard]

/-- Helper: if any row of the input misses a configured aggregated field
index, the fold over `collect_and_aggregate` ends in an error, from every
starting state. -/
theorem csv_fold_fatal (ffs : FFs) (n : ℕ) (hn : n ∈ sfields ffs) :
    ∀ (rows : List Row) (st : MergeSt), (∃ r ∈ rows, r.length ≤ n) →
      ∃ outs e, csv_fold ffs st rows = (outs, .error e) := by
  intro rows
  induction rows with
  | nil =>
      rintro st ⟨r, hr, _⟩
      cases hr
  | cons r0 rest ih =>
      rintro st ⟨r, hr, hlen⟩
      by_cases h0 : r0.length ≤ n
      · rcases collect_bad_row ffs n r0 hn h0 st with ⟨outs, e, hc⟩
        exact ⟨outs, e, by simp [csv_fold, hc]⟩
      · have hrr : r ∈ rest := by
          rcases List.mem_cons.mp hr with h | h
          · rw [h] at hlen; exact absurd hlen h0
          · exact h
        cases hc : collect_and_aggregate ffs st r0 with
        | mk outs0 res =>
            cases res with
            | error e => exact ⟨outs0, e, by simp [csv_fold, hc]⟩
            | ok st1 =>
                rcases ih st1 ⟨r, hrr, hlen⟩ with ⟨outs2, e, h2⟩
                exact ⟨outs0 ++ outs2, e, by simp [csv_fold, hc, h2]⟩

/-- Claim C9: an aggregated field index that is out of range for a row is a
fatal error, never silently skipped: if any input row is too short for a
configured index the run ends with an error, and when every row is too short
the failure strikes on the very first row, with no output produced. -/
theorem out_of_range_fatal (ffs : FFs) (rows : List Row) (n : ℕ)
    (hn : n ∈ sfields ffs) :
    ((∃ r ∈ rows, r.length ≤ n) → (runMerge ffs rows).2 ≠ none) ∧
    ((∀ r ∈ rows, r.length ≤ n) → rows ≠ [] →
      runMerge ffs rows = ([], some .indexOutOfRange)) := by
  constructor
  · intro hex
    rcases csv_fold_fatal ffs n hn rows none hex with ⟨outs, e, hf⟩
    simp [runMerge, hf]
  · intro hall hne
    cases rows with
    | nil => exact absurd rfl hne
    | cons r0 rest =>
        have hguard : ¬ ∀ m ∈ sfields ffs, m < r0.length := by
          intro h
          have h1 := h n hn
          have h2 := hall r0 (by simp)
          omega
        simp [runMerge, csv_fold, collect_and_aggregate, reset_cmp_line, hguard]

/-- Witness for claim C9: the spec `9:max`-style binding `(9, firstFn)` on the
single two-field row `a,b` fails immediately with no output. -/
theorem out_of_range_fatal_witness :
    runMerge [(9, firstFn)] [["a", "b"]] = ([], some .indexOutOfRange) :=
  (out_of_range_fatal [(9, firstFn)] [["a", "b"]] 9 (by decide)).2
    (by decide) (by decide)

/-- Helper: unfolding one successful step of the fold. -/
theorem csv_fold_cons_ok (ffs : FFs) (st : MergeSt) (row : Row) (rest : List Row)
    (outs1 : List Row) (st1 : MergeSt)
    (hc : collect_and_aggregate ffs st row = (outs1, .ok st1)) :
    csv_fold ffs st (row :: rest) =
      (outs1 ++ (csv_fold ffs st1 rest).1, (csv_fold ffs st1 rest).2) := by
  rw [csv_fold, hc]

/-- Helper: unfolding one failing step of the fold. -/
theorem csv_fold_cons_err (ffs : FFs) (st : MergeSt) (row : Row) (rest : List Row)
    (outs1 : List Row) (e : MergeErr)
    (hc : collect_and_aggregate ffs st row = (outs1, .error e)) :
    csv_fold ffs st (row :: rest) = (outs1, .error e) := by
  rw [csv_fold, hc]

/-- Helper: from an open group with current key `cmp`, a successful fold over
the remaining rows leaves the group open and emits one row fewer than the
number of maximal runs of `cmp` followed by the remaining comparable keys
(the still-open last group is flushed later). -/
theorem csv_fold_open_count (ffs : FFs) :
    ∀ (rest : List Row) (cmp : Row) (acc : AggVals) (outs : List Row) (st1 : MergeSt),
      csv_fold ffs (some (cmp, acc)) rest = (outs, .ok st1) →
      ∃ cmp2 acc2, st1 = some (cmp2, acc2) ∧
        outs.length + 1 = numRuns (cmp :: rest.map (make_comparable (sfields ffs))) := by
  intro rest
  induction rest with
  | nil =>
      intro cmp acc outs st1 h
      simp [csv_fold] at h
      obtain ⟨h1, h2⟩ := h
      exact ⟨cmp, acc, by rw [← h2], by simp [← h1, numRuns]⟩
  | cons row t ih =>
      intro cmp acc outs st1 h
      by_cases hkey : make_comparable (sfields ffs) row = cmp
      · cases hap : append_values (sfields ffs) acc row with
        | error e =>
            have hc : collect_and_aggregate ffs (some (cmp, acc)) row = ([], .error e) := by
              simp [collect_and_aggregate, hkey, hap]
            rw [csv_fold_cons_err ffs _ row t [] e hc] at h
            injection h with h1 h2
            cases h2
        | ok acc1 =>
            have hc : collect_and_aggregate ffs (some (cmp, acc)) row =
                ([], .ok (some (cmp, acc1))) := by
              simp [collect_and_aggregate, hkey, hap]
            rw [csv_fold_cons_ok ffs _ row t [] (some (cmp, acc1)) hc] at h
            cases hrec : csv_fold ffs (some (cmp, acc1)) t with
            | mk outs2 r =>
                rw [hrec] at h
                injection h with h1 h2
                subst h2
                rcases ih cmp acc1 outs2 st1 hrec with ⟨cmp2, acc2, hst, hcount⟩
                refine ⟨cmp2, acc2, hst, ?_⟩
                rw [← h1, List.map_cons, hkey]
                have hrw : numRuns (cmp :: cmp :: List.map (make_comparable (sfields ffs)) t) =
                    numRuns (cmp :: List.map (make_comparable (sfields ffs)) t) := by
                  simp [numRuns]
                rw [hrw]
                simpa using hcount
      · cases ham : add_mergeable ffs acc cmp with
        | error e =>
            have hc : collect_and_aggregate ffs (some (cmp, acc)) row = ([], .error e) := by
              simp [collect_and_aggregate, hkey, ham]
            rw [csv_fold_cons_err ffs _ row t [] e hc] at h
            injection h with h1 h2
            cases h2
        | ok out =>
            cases hres : reset_cmp_line (sfields ffs) row with
            | error e =>
                have hc : collect_and_aggregate ffs (some (cmp, acc)) row =
                    ([out], .error e) := by
                  simp [collect_and_aggregate, hkey, ham, hres]
                rw [csv_fold_cons_err ffs _ row t [out] e hc] at h
                injection h with h1 h2
                cases h2
            | ok st0 =>
                obtain rfl := reset_cmp_line_ok_eq _ _ _ hres
                have hc : collect_and_aggregate ffs (some (cmp, acc)) row =
                    ([out], .ok (some (make_comparable (sfields ffs) row,
                      (sfields ffs).map (fun n => (n, [row.getD n ("")]))))) := by
                  simp [collect_and_aggregate, hkey, ham, hres]
                rw [csv_fold_cons_ok ffs _ row t [out] _ hc] at h
                cases hrec : csv_fold ffs (some (make_comparable (sfields ffs) row,
                    (sfields ffs).map (fun n => (n, [row.getD n ("")])))) t with
                | mk outs2 r =>
                    rw [hrec] at h
                    injection h with h1 h2
                    subst h2
                    rcases ih (make_comparable (sfields ffs) row) _ outs2 st1 hrec with
                      ⟨cmp2, acc2, hst, hcount⟩
                    refine ⟨cmp2, acc2, hst, ?_⟩
                    rw [← h1]
                    have hne : cmp ≠ make_comparable (sfields ffs) row := fun hx => hkey hx.symm
                    simp only [List.map_cons, numRuns, if_neg hne, List.length_append,
                      List.length_cons, List.length_nil]
                    omega

/-- Claim C1: when every row has the same field count and no fatal error
occurs, the merge emits exactly one output row per maximal contiguous run of
rows with equal comparable keys; an empty input yields zero output rows. -/
theorem merge_output_counts_runs (ffs : FFs) (rows : List Row) (L : ℕ)
    (hlen : ∀ r ∈ rows, r.length = L)
    (hok : (runMerge ffs rows).2 = none) :
    (runMerge ffs rows).1.length = numRuns (rows.map (make_comparable (sfields ffs))) := by
  cases rows with
  | nil => simp [runMerge, csv_fold, numRuns]
  | cons r0 t =>
      cases hres : reset_cmp_line (sfields ffs) r0 with
      | error e =>
          have hc : collect_and_aggregate ffs none r0 = ([], .error e) := by
            simp [collect_and_aggregate, hres]
          have hrm : runMerge ffs (r0 :: t) = ([], some e) := by
            rw [runMerge, csv_fold_cons_err ffs none r0 t [] e hc]
          rw [hrm] at hok
          simp at hok
      | ok st0 =>
          obtain rfl := reset_cmp_line_ok_eq _ _ _ hres
          have hc : collect_and_aggregate ffs none r0 =
              ([], .ok (some (make_comparable (sfields ffs) r0,
                (sfields ffs).map (fun n => (n, [r0.getD n ("")]))))) := by
            simp [collect_and_aggregate, hres]
          have hsplit := csv_fold_cons_ok ffs none r0 t [] _ hc
          cases hrec : csv_fold ffs (some (make_comparable (sfields ffs) r0,
              (sfields ffs).map (fun n => (n, [r0.getD n ("")])))) t with
          | mk outs2 r =>
              rw [hrec] at hsplit
              dsimp only at hsplit
              cases r with
              | error e =>
                  have hrm : runMerge ffs (r0 :: t) = ([] ++ outs2, some e) := by
                    rw [runMerge, hsplit]
                  rw [hrm] at hok
                  simp at hok
              | ok st1 =>
                  rcases csv_fold_open_count ffs t _ _ outs2 st1 hrec with
                    ⟨cmp2, acc2, rfl, hcount⟩
                  cases ham : add_mergeable ffs acc2 cmp2 with
                  | error e =>
                      have hrm : runMerge ffs (r0 :: t) = ([] ++ outs2, some e) := by
                        rw [runMerge, hsplit]
                        dsimp only
                        rw [ham]
                      rw [hrm] at hok
                      simp at hok
                  | ok out =>
                      have hrm : runMerge ffs (r0 :: t) = (([] ++ outs2) ++ [out], none) := by
                        rw [runMerge, hsplit]
                        dsimp only
                        rw [ham]
                      rw [hrm]
                      simp only [List.map_cons, List.nil_append, List.length_append,
                        List.length_cons, List.length_nil]
                      omega

/-- Witness for claim C1: with no bindings, the three rows `a`, `a`, `b` form
two runs and the merge emits two rows. -/
theorem merge_output_counts_runs_witness :
    (runMerge [] [["a"], ["a"], ["b"]]).1.length =
      numRuns ([["a"], ["a"], ["b"]].map (make_comparable (sfields []))) :=
  merge_output_counts_runs [] [["a"], ["a"], ["b"]] 1 (by decide) (by decide)

/-- Helper: every row printed by the fold from an open group whose key is the
projection of some row of `rows0` is a comparable projection of a row of
`rows0` followed by successfully rendered binding results, and the group key
left open keeps that origin. -/
theorem csv_fold_open_spec (ffs : FFs) (rows0 : List Row) :
    ∀ (rest : List Row) (cmp : Row) (acc : AggVals) (outs : List Row)
      (r : Except MergeErr MergeSt),
      (∀ x ∈ rest, x ∈ rows0) →
      (∃ q ∈ rows0, cmp = make_comparable (sfields ffs) q) →
      csv_fold ffs (some (cmp, acc)) rest = (outs, r) →
      (∀ out ∈ outs, ∃ q acc2 res, q ∈ rows0 ∧ bindingResults ffs acc2 = .ok res ∧
        out = make_comparable (sfields ffs) q ++ res) ∧
      (∀ cmp2 acc2, r = .ok (some (cmp2, acc2)) →
        ∃ q ∈ rows0, cmp2 = make_comparable (sfields ffs) q) := by
  intro rest
  induction rest with
  | nil =>
      intro cmp acc outs r hsub hcmp h
      simp [csv_fold] at h
      obtain ⟨h1, h2⟩ := h
      constructor
      · intro out hout
        rw [h1] at hout
        cases hout
      · intro cmp2 acc2 hr
        rw [← h2] at hr
        injection hr with hr1
        injection hr1 with hr2
        injection hr2 with hr3 hr4
        rw [← hr3]
        exact hcmp
  | cons row t ih =>
      intro cmp acc outs r hsub hcmp h
      have hrow : row ∈ rows0 := hsub row (by simp)
      have hsubt : ∀ x ∈ t, x ∈ rows0 := fun x hx => hsub x (by simp [hx])
      by_cases hkey : make_comparable (sfields ffs) row = cmp
      · cases hap : append_values (sfields ffs) acc row with
        | error e =>
            have hc : collect_and_aggregate ffs (some (cmp, acc)) row = ([], .error e) := by
              simp [collect_and_aggregate, hkey, hap]
            rw [csv_fold_cons_err ffs _ row t [] e hc] at h
            injection h with h1 h2
            constructor
            · intro out hout
              rw [← h1] at hout
              cases hout
            · intro cmp2 acc2 hr
              rw [← h2] at hr
              cases hr
        | ok acc1 =>
            have hc : collect_and_aggregate ffs (some (cmp, acc)) row =
                ([], .ok (some (cmp, acc1))) := by
              simp [collect_and_aggregate, hkey, hap]
            rw [csv_fold_cons_ok ffs _ row t [] (some (cmp, acc1)) hc] at h
            cases hrec : csv_fold ffs (some (cmp, acc1)) t with
            | mk outs2 r2 =>
                rw [hrec] at h
                dsimp only at h
                injection h with h1 h2
                rcases ih cmp acc1 outs2 r2 hsubt hcmp hrec with ⟨houts, hst⟩
                constructor
                · intro out hout
                  rw [← h1] at hout
                  exact houts out hout
                · intro cmp2 acc2 hr
                  refine hst cmp2 acc2 ?_
                  rw [h2]
                  exact hr
      · cases ham : add_mergeable ffs acc cmp with
        | error e =>
            have hc : collect_and_aggregate ffs (some (cmp, acc)) row = ([], .error e) := by
              simp [collect_and_aggregate, hkey, ham]
            rw [csv_fold_cons_err ffs _ row t [] e hc] at h
            injection h with h1 h2
            constructor
            · intro out hout
              rw [← h1] at hout
              cases hout
            · intro cmp2 acc2 hr
              rw [← h2] at hr
              cases hr
        | ok out0 =>
            have hout0 : ∃ q acc2 res, q ∈ rows0 ∧ bindingResults ffs acc2 = .ok res ∧
                out0 = make_comparable (sfields ffs) q ++ res := by
              rcases (add_mergeable_ok_iff ffs acc cmp out0).mp ham with ⟨res, hres, rfl⟩
              rcases hcmp with ⟨q, hq, rfl⟩
              exact ⟨q, acc, res, hq, hres, rfl⟩
            cases hres : reset_cmp_line (sfields ffs) row with
            | error e =>
                have hc : collect_and_aggregate ffs (some (cmp, acc)) row =
                    ([out0], .error e) := by
                  simp [collect_and_aggregate, hkey, ham, hres]
                rw [csv_fold_cons_err ffs _ row t [out0] e hc] at h
                injection h with h1 h2
                constructor
                · intro out hout
                  rw [← h1] at hout
                  rw [List.mem_singleton.mp hout]
                  exact hout0
                · intro cmp2 acc2 hr
                  rw [← h2] at hr
                  cases hr
            | ok st0 =>
                obtain rfl := reset_cmp_line_ok_eq _ _ _ hres
                have hc : collect_and_aggregate ffs (some (cmp, acc)) row =
                    ([out0], .ok (some (make_comparable (sfields ffs) row,
                      (sfields ffs).map (fun n => (n, [row.getD n ("")]))))) := by
                  simp [collect_and_aggregate, hkey, ham, hres]
                rw [csv_fold_cons_ok ffs _ row t [out0] _ hc] at h
                cases hrec : csv_fold ffs (some (make_comparable (sfields ffs) row,
                    (sfields ffs).map (fun n => (n, [row.getD n ("")])))) t with
                | mk outs2 r2 =>
                    rw [hrec] at h
                    dsimp only at h
                    injection h with h1 h2
                    rcases ih (make_comparable (sfields ffs) row) _ outs2 r2 hsubt
                        ⟨row, hrow, rfl⟩ hrec with ⟨houts, hst⟩
                    constructor
                    · intro out hout
                      rw [← h1] at hout
                      rcases List.mem_cons.mp hout with h0 | h0
                      · rw [h0]
                        exact hout0
                      · exact houts out h0
                    · intro cmp2 acc2 hr
                      refine hst cmp2 acc2 ?_
                      rw [h2]
                      exact hr

/-- Claim C5: every emitted output row is the comparable projection of a row
of the input — the group's comparable fields, in their original left-to-right
relative order — followed by the rendered binding results appended in exactly
the order the bindings were specified. -/
theorem output_row_shape (ffs : FFs) (rows : List Row) :
    ∀ out ∈ (runMerge ffs rows).1, ∃ q acc res, q ∈ rows ∧
      bindingResults ffs acc = .ok res ∧
      out = make_comparable (sfields ffs) q ++ res := by
  cases rows with
  | nil =>
      intro out hout
      simp [runMerge, csv_fold] at hout
  | cons r0 t =>
      cases hres : reset_cmp_line (sfields ffs) r0 with
      | error e =>
          have hc : collect_and_aggregate ffs none r0 = ([], .error e) := by
            simp [collect_and_aggregate, hres]
          have hrm : runMerge ffs (r0 :: t) = ([], some e) := by
            rw [runMerge, csv_fold_cons_err ffs none r0 t [] e hc]
          intro out hout
          rw [hrm] at hout
          cases hout
      | ok st0 =>
          obtain rfl := reset_cmp_line_ok_eq _ _ _ hres
          have hc : collect_and_aggregate ffs none r0 =
              ([], .ok (some (make_comparable (sfields ffs) r0,
                (sfields ffs).map (fun n => (n, [r0.getD n ("")]))))) := by
            simp [collect_and_aggregate, hres]
          have hsplit := csv_fold_cons_ok ffs none r0 t [] _ hc
          cases hrec : csv_fold ffs (some (make_comparable (sfields ffs) r0,
              (sfields ffs).map (fun n => (n, [r0.getD n ("")])))) t with
          | mk outs2 r =>
              rw [hrec] at hsplit
              dsimp only at hsplit
              rcases csv_fold_open_spec ffs (r0 :: t) t _ _ outs2 r
                  (fun x hx => List.mem_cons_of_mem r0 hx)
                  ⟨r0, by simp, rfl⟩ hrec with ⟨houts, hst⟩
              cases r with
              | error e =>
                  have hrm : runMerge ffs (r0 :: t) = (outs2, some e) := by
                    rw [runMerge, hsplit]
                    simp
                  intro out hout
                  rw [hrm] at hout
                  exact houts out hout
              | ok st1 =>
                  match st1 with
                  | none =>
                      have hrm : runMerge ffs (r0 :: t) = (outs2, none) := by
                        rw [runMerge, hsplit]
                        simp
                      intro out hout
                      rw [hrm] at hout
                      exact houts out hout
                  | some (cmp2, acc2) =>
                      cases ham : add_mergeable ffs acc2 cmp2 with
                      | error e =>
                          have hrm : runMerge ffs (r0 :: t) = (outs2, some e) := by
                            rw [runMerge, hsplit]
                            dsimp only
                            rw [ham]
                            simp
                          intro out hout
                          rw [hrm] at hout
                          exact houts out hout
                      | ok out0 =>
                          have hrm : runMerge ffs (r0 :: t) = (outs2 ++ [out0], none) := by
                            rw [runMerge, hsplit]
                            dsimp only
                            rw [ham]
                            simp
                          intro out hout
                          rw [hrm] at hout
                          rcases List.mem_append.mp hout with h0 | h0
                          · exact houts out h0
                          · rw [List.mem_singleton.mp h0]
                            rcases hst cmp2 acc2 rfl with ⟨q, hq, rfl⟩
                            rcases (add_mergeable_ok_iff ffs acc2 _ out0).mp ham with
                              ⟨res, hres2, rfl⟩
                            exact ⟨q, acc2, res, hq, hres2, rfl⟩

/-- Witness for claim C5: the row `a,1` emitted for the group `1,a`, `2,a`
under the binding `0:first` is the comparable projection of an input row
followed by that binding's rendered result. -/
theorem output_row_shape_witness :
    ∃ q acc res, q ∈ [(["1", "a"] : Row), ["2", "a"]] ∧
      bindingResults [(0, firstFn)] acc = .ok res ∧
      (["a", "1"] : Row) = make_comparable (sfields [(0, firstFn)]) q ++ res :=
  output_row_shape [(0, firstFn)] [["1", "a"], ["2", "a"]] ["a", "1"] (by decide)

/-- Helper: a successful `append_values` appends the row's value at each key
of the accumulator. -/
theorem append_values_ok_eq (s : List ℕ) (acc : AggVals) (row : Row) (acc1 : AggVals)
    (h : append_values s acc row = .ok acc1) :
    acc1 = acc.map (fun p => (p.1, p.2 ++ [row.getD p.1 ("")])) := by
  by_cases hg : ∀ n ∈ s, n < row.length
  · rw [append_values, if_pos hg] at h
    cases h
    rfl
  · rw [append_values, if_neg hg] at h
    cases h

/-- Helper: a row whose key matches the open group extends the group count by
one. -/
theorem grpCount_snoc_eq (s : List ℕ) (cmp : Row) (P : List Row) (row : Row)
    (hkey : make_comparable s row = cmp) :
    grpCount s cmp (P ++ [row]) = grpCount s cmp P + 1 := by
  unfold grpCount
  simp [List.takeWhile_cons, hkey]

/-- Helper: a positive group count means the most recent row carries the
current key. -/
theorem grpCount_pos_last (s : List ℕ) (cmp : Row) (P : List Row)
    (hpos : 0 < grpCount s cmp P) :
    ∃ p0 t0, P.reverse = p0 :: t0 ∧ make_comparable s p0 = cmp := by
  unfold grpCount at hpos
  cases hrev : P.reverse with
  | nil => rw [hrev] at hpos; simp at hpos
  | cons p0 t0 =>
      rw [hrev] at hpos
      cases hb : (make_comparable s p0 == cmp) with
      | false => simp [List.takeWhile_cons, hb] at hpos
      | true => exact ⟨p0, t0, rfl, by simpa using hb⟩

/-- Helper: after a flush, the group that the non-matching row opens has
count one. -/
theorem grpCount_new_group (s : List ℕ) (cmp : Row) (P : List Row) (row : Row)
    (hpos : 0 < grpCount s cmp P) (hne : make_comparable s row ≠ cmp) :
    grpCount s (make_comparable s row) (P ++ [row]) = 1 := by
  rcases grpCount_pos_last s cmp P hpos with ⟨p0, t0, hrev, hp0⟩
  have hb : (make_comparable s p0 == make_comparable s row) = false := by
    refine beq_eq_false_iff_ne.mpr ?_
    rw [hp0]
    exact fun hx => hne hx.symm
  unfold grpCount
  simp [hrev, List.takeWhile_cons, hb]

/-- Helper: a one-row prefix opens a group of count one. -/
theorem grpCount_single (s : List ℕ) (row : Row) :
    grpCount s (make_comparable s row) [row] = 1 := by
  simp [grpCount, List.takeWhile_cons]

/-- Helper: a key present among an association list's keys has a successful
lookup. -/
theorem lookup_some_of_mem_keys {B : Type _} (l : List (ℕ × B)) (a : ℕ)
    (h : a ∈ l.map Prod.fst) : ∃ b, l.lookup a = some b := by
  induction l with
  | nil => simp at h
  | cons p rest ih =>
      obtain ⟨k, b⟩ := p
      by_cases hak : a = k
      · exact ⟨b, by simp [List.lookup, hak]⟩
      · have hmem : a ∈ rest.map Prod.fst := by
          rw [List.map_cons] at h
          rcases List.mem_cons.mp h with h0 | h0
          · exact absurd h0 hak
          · exact h0
        rcases ih hmem with ⟨b2, hb2⟩
        exact ⟨b2, by simp [List.lookup, beq_eq_false_iff_ne.mpr hak, hb2]⟩

/-- Helper: a successful lookup is membership. -/
theorem mem_of_lookup_some {B : Type _} (l : List (ℕ × B)) (a : ℕ) (b : B)
    (h : l.lookup a = some b) : (a, b) ∈ l := by
  induction l with
  | nil => cases h
  | cons p rest ih =>
      obtain ⟨k, c⟩ := p
      cases hb : (a == k) with
      | true =>
          simp only [List.lookup, hb] at h
          injection h with hbc
          rw [beq_iff_eq.mp hb, ← hbc]
          exact List.mem_cons_self _ _
      | false =>
          simp only [List.lookup, hb] at h
          exact List.mem_cons_of_mem _ (ih h)

/-- Helper: preservation of the open-group accumulator invariant — positive
group count, keys exactly the aggregated indices, and every accumulated value
list as long as the current group — along a successful fold. -/
theorem csv_fold_open_inv (ffs : FFs) (rest : List Row) :
    ∀ (prefixR : List Row) (cmp : Row) (acc : AggVals),
      0 < grpCount (sfields ffs) cmp prefixR →
      acc.map Prod.fst = sfields ffs →
      (∀ p ∈ acc, p.2.length = grpCount (sfields ffs) cmp prefixR) →
      ∀ cmp2 acc2,
        (csv_fold ffs (some (cmp, acc)) rest).2 = .ok (some (cmp2, acc2)) →
        0 < grpCount (sfields ffs) cmp2 (prefixR ++ rest) ∧
        acc2.map Prod.fst = sfields ffs ∧
        ∀ p ∈ acc2, p.2.length = grpCount (sfields ffs) cmp2 (prefixR ++ rest) := by
  induction rest with
  | nil =>
      intro prefixR cmp acc hpos hkeys hlens cmp2 acc2 h
      simp [csv_fold] at h
      obtain ⟨h1, h2⟩ := h
      rw [← h1, ← h2, List.append_nil]
      exact ⟨hpos, hkeys, hlens⟩
  | cons row t ih =>
      intro prefixR cmp acc hpos hkeys hlens cmp2 acc2 h
      by_cases hkey : make_comparable (sfields ffs) row = cmp
      · cases hap : append_values (sfields ffs) acc row with
        | error e =>
            have hc : collect_and_aggregate ffs (some (cmp, acc)) row = ([], .error e) := by
              simp [collect_and_aggregate, hkey, hap]
            rw [csv_fold_cons_err ffs _ row t [] e hc] at h
            cases h
        | ok acc1 =>
            obtain rfl := append_values_ok_eq _ _ _ _ hap
            have hc : collect_and_aggregate ffs (some (cmp, acc)) row =
                ([], .ok (some (cmp, acc.map (fun p => (p.1, p.2 ++ [row.getD p.1 ("")]))))) := by
              simp [collect_and_aggregate, hkey, hap]
            rw [csv_fold_cons_ok ffs _ row t [] _ hc] at h
            dsimp only at h
            have hcnt := grpCount_snoc_eq (sfields ffs) cmp prefixR row hkey
            have hres := ih (prefixR ++ [row]) cmp _
              (by omega)
              (by rw [List.map_map]; exact hkeys)
              (by
                intro p hp
                rcases List.mem_map.mp hp with ⟨q, hq, rfl⟩
                simp only [List.length_append, List.length_cons, List.length_nil]
                rw [hlens q hq]
                omega)
              cmp2 acc2 h
            rw [List.append_assoc] at hres
            simpa using hres
      · cases ham : add_mergeable ffs acc cmp with
        | error e =>
            have hc : collect_and_aggregate ffs (some (cmp, acc)) row = ([], .error e) := by
              simp [collect_and_aggregate, hkey, ham]
            rw [csv_fold_cons_err ffs _ row t [] e hc] at h
            cases h
        | ok out0 =>
            cases hres0 : reset_cmp_line (sfields ffs) row with
            | error e =>
                have hc : collect_and_aggregate ffs (some (cmp, acc)) row =
                    ([out0], .error e) := by
                  simp [collect_and_aggregate, hkey, ham, hres0]
                rw [csv_fold_cons_err ffs _ row t [out0] e hc] at h
                cases h
            | ok st0 =>
                obtain rfl := reset_cmp_line_ok_eq _ _ _ hres0
                have hc : collect_and_aggregate ffs (some (cmp, acc)) row =
                    ([out0], .ok (some (make_comparable (sfields ffs) row,
                      (sfields ffs).map (fun n => (n, [row.getD n ("")]))))) := by
                  simp [collect_and_aggregate, hkey, ham, hres0]
                rw [csv_fold_cons_ok ffs _ row t [out0] _ hc] at h
                dsimp only at h
                have hcnt := grpCount_new_group (sfields ffs) cmp prefixR row hpos hkey
                have hres := ih (prefixR ++ [row]) (make_comparable (sfields ffs) row) _
                  (by omega)
                  (by rw [List.map_map]; simp [Function.comp_def])
                  (by
                    intro p hp
                    rcases List.mem_map.mp hp with ⟨n, hn, rfl⟩
                    simpa using hcnt.symm)
                  cmp2 acc2 h
                rw [List.append_assoc] at hres
                simpa using hres

/-- Claim C10: whenever a group is open after some rows have streamed
through, the accumulator keys are exactly the aggregated field indices and
every accumulated value list is non-empty with length equal to the number of
rows of the open group; consequently every binding's reduction receives a
non-empty value sequence at flush time. -/
theorem open_group_accumulator_invariant (ffs : FFs) (rows : List Row) (cmp : Row)
    (acc : AggVals)
    (hst : (csv_fold ffs none rows).2 = .ok (some (cmp, acc))) :
    (0 < grpCount (sfields ffs) cmp rows ∧
     acc.map Prod.fst = sfields ffs ∧
     ∀ p ∈ acc, p.2.length = grpCount (sfields ffs) cmp rows) ∧
    ∀ q ∈ ffs, ∃ vs, acc.lookup q.1 = some vs ∧ vs ≠ [] := by
  have hmain : 0 < grpCount (sfields ffs) cmp rows ∧
      acc.map Prod.fst = sfields ffs ∧
      ∀ p ∈ acc, p.2.length = grpCount (sfields ffs) cmp rows := by
    cases rows with
    | nil => simp [csv_fold] at hst
    | cons r0 t =>
        cases hres : reset_cmp_line (sfields ffs) r0 with
        | error e =>
            have hc : collect_and_aggregate ffs none r0 = ([], .error e) := by
              simp [collect_and_aggregate, hres]
            rw [csv_fold_cons_err ffs none r0 t [] e hc] at hst
            cases hst
        | ok st0 =>
            obtain rfl := reset_cmp_line_ok_eq _ _ _ hres
            have hc : collect_and_aggregate ffs none r0 =
                ([], .ok (some (make_comparable (sfields ffs) r0,
                  (sfields ffs).map (fun n => (n, [r0.getD n ("")]))))) := by
              simp [collect_and_aggregate, hres]
            rw [csv_fold_cons_ok ffs none r0 t [] _ hc] at hst
            dsimp only at hst
            have hres2 := csv_fold_open_inv ffs t [r0] (make_comparable (sfields ffs) r0) _
              (by rw [grpCount_single]; exact Nat.one_pos)
              (by rw [List.map_map]; simp [Function.comp_def])
              (by
                intro p hp
                rcases List.mem_map.mp hp with ⟨n, hn, rfl⟩
                simp [grpCount_single])
              cmp acc hst
            simpa using hres2
  refine ⟨hmain, ?_⟩
  obtain ⟨hpos, hkeys, hlens⟩ := hmain
  intro q hq
  have hqk : q.1 ∈ acc.map Prod.fst := by
    rw [hkeys]
    unfold sfields
    exact List.mem_dedup.mpr (List.mem_map_of_mem Prod.fst hq)
  rcases lookup_some_of_mem_keys acc q.1 hqk with ⟨vs, hvs⟩
  refine ⟨vs, hvs, ?_⟩
  have hmem := mem_of_lookup_some acc q.1 vs hvs
  have hlen := hlens (q.1, vs) hmem
  intro hnil
  rw [hnil] at hlen
  simp at hlen
  omega

/-- Witness for claim C10: after the two matching rows `1,a` and `2,a` under
the binding `0:first`, the open group has key `a` and the accumulator for
field 0 holds the two values seen. -/
theorem open_group_accumulator_invariant_witness :
    ∃ cmp acc,
      (csv_fold [((0 : ℕ), firstFn)] none [["1", "a"], ["2", "a"]]).2 =
        .ok (some (cmp, acc)) ∧
      ((0 < grpCount (sfields [((0 : ℕ), firstFn)]) cmp [["1", "a"], ["2", "a"]] ∧
        acc.map Prod.fst = sfields [((0 : ℕ), firstFn)] ∧
        ∀ p ∈ acc, p.2.length =
          grpCount (sfields [((0 : ℕ), firstFn)]) cmp [["1", "a"], ["2", "a"]]) ∧
       ∀ q ∈ [((0 : ℕ), firstFn)], ∃ vs, acc.lookup q.1 = some vs ∧ vs ≠ []) := by
  refine ⟨["a"], [(0, ["1", "2"])], by decide, ?_⟩
  exact open_group_accumulator_invariant [((0 : ℕ), firstFn)] [["1", "a"], ["2", "a"]]
    ["a"] [(0, ["1", "2"])] (by decide)

/-- Helper: with no aggregated indices the projection loop keeps every
field. -/
theorem make_comparable_from_nil (l : List String) :
    ∀ n : ℕ, make_comparable_from [] n l = l := by
  induction l with
  | nil => intro n; rfl
  | cons x t ih => intro n; simp [make_comparable_from, ih]

/-- Helper: with no aggregated indices the comparable key is the whole
row. -/
theorem make_comparable_nil (l : Row) : make_comparable [] l = l :=
  make_comparable_from_nil l 0

/-- Helper: with no bindings, the fold from an open group is exactly adjacent
deduplication: it prints the first row of each finished run and keeps the key
of the still-open last run. -/
theorem csv_fold_nob (t : List Row) :
    ∀ (k : Row) (acc : AggVals), ∃ acc2,
      csv_fold [] (some (k, acc)) t =
        ((dedupAdjFrom k t).1, .ok (some ((dedupAdjFrom k t).2, acc2))) := by
  induction t with
  | nil =>
      intro k acc
      exact ⟨acc, by simp [csv_fold, dedupAdjFrom]⟩
  | cons r t2 ih =>
      intro k acc
      by_cases hr : r = k
      · have hc : collect_and_aggregate [] (some (k, acc)) r =
            ([], .ok (some (k, acc.map (fun p => (p.1, p.2 ++ [r.getD p.1 ("")]))))) := by
          simp [collect_and_aggregate, append_values, sfields, make_comparable_nil, hr]
        rcases ih k (acc.map (fun p => (p.1, p.2 ++ [r.getD p.1 ("")]))) with ⟨acc2, hrec⟩
        refine ⟨acc2, ?_⟩
        rw [csv_fold_cons_ok [] _ r t2 [] _ hc, hrec]
        dsimp only
        simp [dedupAdjFrom, hr]
      · have hc : collect_and_aggregate [] (some (k, acc)) r = ([k], .ok (some (r, []))) := by
          simp [collect_and_aggregate, add_mergeable, reset_cmp_line, sfields,
            make_comparable_nil, hr]
        rcases ih r [] with ⟨acc2, hrec⟩
        refine ⟨acc2, ?_⟩
        rw [csv_fold_cons_ok [] _ r t2 [k] _ hc, hrec]
        dsimp only
        cases hd : dedupAdjFrom r t2 with
        | mk outs kl => simp [dedupAdjFrom, hr, hd]

/-- Helper: with no bindings, a non-empty merge run prints the first row of
each run, ending with the final flush of the last open key. -/
theorem runMerge_nob_cons (r : Row) (t : List Row) :
    runMerge [] (r :: t) = ((dedupAdjFrom r t).1 ++ [(dedupAdjFrom r t).2], none) := by
  have hc : collect_and_aggregate [] none r = ([], .ok (some (r, []))) := by
    simp [collect_and_aggregate, reset_cmp_line, sfields, make_comparable_nil]
  rcases csv_fold_nob t r [] with ⟨acc2, hrec⟩
  rw [runMerge, csv_fold_cons_ok [] none r t [] _ hc, hrec]
  dsimp only [add_mergeable]
  simp

/-- Helper: the deduplicated output starts with the opening key and has no
two adjacent equal rows. -/
theorem dedupAdjFrom_head_chain (t : List Row) :
    ∀ (k : Row),
      ((dedupAdjFrom k t).1 ++ [(dedupAdjFrom k t).2]).head? = some k ∧
      List.Chain' (fun a b => a ≠ b)
        ((dedupAdjFrom k t).1 ++ [(dedupAdjFrom k t).2]) := by
  induction t with
  | nil => intro k; simp [dedupAdjFrom]
  | cons r t2 ih =>
      intro k
      by_cases hr : r = k
      · simpa [dedupAdjFrom, hr] using ih k
      · cases hd : dedupAdjFrom r t2 with
        | mk outs kl =>
            have hih := ih r
            rw [hd] at hih
            dsimp only at hih
            obtain ⟨hhead, hchain⟩ := hih
            constructor
            · simp [dedupAdjFrom, hr, hd]
            · have hgoal : List.Chain' (fun a b => a ≠ b) (k :: (outs ++ [kl])) := by
                rw [List.chain'_cons']
                refine ⟨?_, hchain⟩
                intro b hb
                rw [hhead] at hb
                injection hb with hb2
                rw [← hb2]
                exact fun hx => hr hx.symm
              simpa [dedupAdjFrom, hr, hd] using hgoal

/-- Helper: on a list with no two adjacent equal rows, adjacent
deduplication is the identity. -/
theorem dedupAdjFrom_of_chain (t : List Row) :
    ∀ (k : Row), List.Chain' (fun a b => a ≠ b) (k :: t) →
      (dedupAdjFrom k t).1 ++ [(dedupAdjFrom k t).2] = k :: t := by
  induction t with
  | nil => intro k _; simp [dedupAdjFrom]
  | cons r t2 ih =>
      intro k hchain
      have hkr : k ≠ r := (List.chain'_cons.mp hchain).1
      have hr : ¬ r = k := fun h => hkr h.symm
      cases hd : dedupAdjFrom r t2 with
      | mk outs kl =>
          have hih := ih r (List.chain'_cons.mp hchain).2
          rw [hd] at hih
          dsimp only at hih
          simp only [dedupAdjFrom, if_neg hr, hd]
          simpa using hih

/-- Claim C4 as amended: with no field-function bindings — the pure
adjacent-deduplication mode — running merge on its own output reproduces
that output exactly, so merge is idempotent in that mode.  (With bindings it
is not; see the counterexample.) -/
theorem merge_no_bindings_idempotent (rows : List Row) :
    runMerge [] ((runMerge [] rows).1) = runMerge [] rows := by
  cases rows with
  | nil => rfl
  | cons r t =>
      rw [runMerge_nob_cons r t]
      obtain ⟨hhead, hchain⟩ := dedupAdjFrom_head_chain t r
      cases hl : (dedupAdjFrom r t).1 ++ [(dedupAdjFrom r t).2] with
      | nil => rw [hl] at hhead; cases hhead
      | cons x rest =>
          rw [hl] at hhead hchain
          dsimp only
          rw [runMerge_nob_cons x rest]
          rw [dedupAdjFrom_of_chain rest x hchain]

/-- Claim C8, counterexample: the spec text `0:max` followed by a newline
fails the claimed grammar, yet the source's regex accepts it, because
Python's `$` also matches just before one final newline.  The run therefore
does not abort: validation succeeds and the rows stream through, producing
output (here with a registry mapping the nine names to concrete functions),
contrary to the claimed abort-with-no-output. -/
theorem trailing_newline_spec_accepted :
    ffGrammar ("0:max\n") = some (0, "max") ∧
    op_merge [("sum", ignoreFn), ("min", ignoreFn), ("max", ignoreFn), ("mean", ignoreFn),
      ("median", ignoreFn), ("stdev", ignoreFn), ("first", ignoreFn), ("last", ignoreFn),
      ("ignore", ignoreFn)] ["0:max\n"] [["a", "b"]] = .ok ([["b", "None"]], none) := by
  decide
